import Mathlib

/-!
Verification development for the NoteAI repository.

The Python sources are shallowly embedded in Lean:
* Python strings are modeled as `Str := List Char` (an ASCII-faithful model:
  Unicode case folding and Unicode whitespace classes are restricted to their
  ASCII behavior, which covers every string the claims exercise);
* fallible operations (file extraction, the OpenAI embedding call, Qdrant
  upserts and deletes) are modeled as `Except`-valued or boolean-flagged
  functions supplied through an environment record, mirroring the fact that
  they are external collaborators of the core;
* the Qdrant collection is modeled as an association list from point id to
  stored record, with upsert-by-id semantics;
* the deterministic note id of `vector_store.py` (`uuid.uuid5`) is
  implemented in full: SHA-1 over the namespace bytes concatenated with the
  UTF-8 encoding of the name, truncated to 16 bytes with the RFC 4122
  version and variant bits set, rendered as the usual hex/dash form.
-/

set_option maxRecDepth 100000

/-- Python strings, modeled as lists of characters. -/
abbrev Str := List Char

/-- ASCII model of the Python whitespace class used by `str.strip`,
`str.splitlines` boundaries and the regex class `\s`:
space, tab, newline, carriage return, vertical tab, form feed. -/
def isWS (c : Char) : Bool :=
  c = ' ' || c = '\t' || c = '\n' || c = '\r' || c.toNat = 11 || c.toNat = 12

/-- ASCII model of `str.lower` on a single character. -/
def lcChar (c : Char) : Char :=
  if 65 ≤ c.toNat ∧ c.toNat ≤ 90 then Char.ofNat (c.toNat + 32) else c

/-- ASCII model of Python `str.lower`. -/
def toLowerL (s : Str) : Str := s.map lcChar

/-- Remove trailing whitespace (the right half of Python `str.strip`). -/
def dropTrailWS (s : Str) : Str := (s.reverse.dropWhile isWS).reverse

/-- Model of Python `str.strip()` (no argument): remove leading and
trailing whitespace. -/
def stripL (s : Str) : Str := dropTrailWS (s.dropWhile isWS)

/-- Prepend a character to the first line of a line list (the heading
case of splitting a line off a longer string). -/
def consLine (c : Char) : List Str → List Str
  | [] => [[c]]
  | l :: ls => (c :: l) :: ls

/-- Model of Python `str.splitlines()` restricted to the line boundaries
that occur in this code base: `\n`, `\r\n` and `\r`.  As in Python, a
trailing terminator does not produce a final empty line. -/
def splitlinesL : Str → List Str
  | [] => []
  | '\r' :: '\n' :: rest => [] :: splitlinesL rest
  | '\n' :: rest => [] :: splitlinesL rest
  | '\r' :: rest => [] :: splitlinesL rest
  | c :: rest => consLine c (splitlinesL rest)

/-- Model of `"\n".join(lines)`. -/
def joinNL : List Str → Str
  | [] => []
  | [l] => l
  | l :: ls => l ++ '\n' :: joinNL ls

/-- Drop leading all-whitespace lines and left-trim the first surviving
line: the line-list image of `dropWhile isWS` on a newline-joined string. -/
def trimLead : List Str → List Str
  | [] => []
  | l :: rest => if l.dropWhile isWS = [] then trimLead rest
                 else l.dropWhile isWS :: rest

/-- The mirror image of `trimLead` acting on the tail of the line list:
the line-list image of `dropTrailWS` on a newline-joined string. -/
def trimTrail (ls : List Str) : List Str :=
  ((trimLead ((ls.map List.reverse).reverse)).reverse).map List.reverse

/-- Boolean substring test, modeling Python `sub in s`. -/
def hasSubL (sub : Str) : Str → Bool
  | [] => sub.isEmpty
  | c :: rest => sub.isPrefixOf (c :: rest) || hasSubL sub rest

/-- Model of the regex test `re.match(r"^[Tt]ags:\s*", line.strip())` used
both by `Note.from_markdown` and by `VectorStore.list_all_notes`: the
stripped line must begin with `Tags:` or `tags:` (the `\s*` tail of the
pattern always matches). -/
def tagsLineMatch (l : Str) : Bool :=
  ("Tags:".data.isPrefixOf (stripL l)) || ("tags:".data.isPrefixOf (stripL l))

/-- Model of `re.search(r"^#\s*(.*)", body, re.MULTILINE)`: scan for the
first line start (string start, or the position after a `\n`) holding a
`#`; the greedy `\s*` then consumes every following whitespace character
(newlines included), and `(.*)` captures up to the next `\n`.  The boolean
argument records whether the scan currently sits at a line start. -/
def findH1Aux : Str → Bool → Option Str
  | [], _ => none
  | c :: rest, atStart =>
    if atStart ∧ c = '#' then
      some ((rest.dropWhile isWS).takeWhile (fun d => d ≠ '\n'))
    else
      findH1Aux rest (c = '\n')

/-- First `#`-line capture of the H1 regex, over a whole string. -/
def findH1 (s : Str) : Option Str := findH1Aux s true

/-- Split a path on `/` and keep the nonempty components: model of
`pathlib.Path(p).parts` adequate for membership tests against directory
names (the root part `/` can never equal an excluded directory name). -/
def pathParts (p : Str) : List Str :=
  ((p.splitOn '/').filter (fun s => ¬ s.isEmpty))

/-- Final path component, as in `pathlib.Path(p).name`. -/
def pathName (p : Str) : Str := (pathParts p).getLastD []

/-- Index of the last `.` of a name, scanned left to right. -/
def rfindDotAux : Str → Nat → Option Nat → Option Nat
  | [], _, acc => acc
  | c :: rest, i, acc => rfindDotAux rest (i + 1) (if c = '.' then some i else acc)

/-- Model of `str.rfind('.')` returning an `Option` instead of `-1`. -/
def rfindDot (n : Str) : Option Nat := rfindDotAux n 0 none

/-- Model of `pathlib.Path(p).suffix`: the extension including the dot,
present only when the last dot sits strictly inside the name. -/
def pathSuffix (p : Str) : Str :=
  let n := pathName p
  match rfindDot n with
  | some i => if 0 < i ∧ i < n.length - 1 then n.drop i else []
  | none => []

/-- Model of `pathlib.Path(p).stem`. -/
def pathStem (p : Str) : Str :=
  let n := pathName p
  match rfindDot n with
  | some i => if 0 < i ∧ i < n.length - 1 then n.take i else n
  | none => n

/-- `Path(file_path).suffix.lower()`, as used by the indexer. -/
def suffixLower (p : Str) : Str := toLowerL (pathSuffix p)

/-!  ## Front matter

`Note.from_markdown` delegates front-matter splitting to the third-party
`python-frontmatter` library (not part of this repository).  It is modeled
here, per the specification of the metadata block, as a minimal
key:value-per-line parser bounded by delimiter lines: the input is first
stripped; when its first line is a boundary (three or more dashes,
optionally followed by whitespace) and a second boundary line exists, the
lines between the boundaries form the metadata and the remainder, stripped,
is the body; otherwise there is no metadata and the stripped input is the
body.  YAML collection values are kept as raw strings. -/

/-- A front-matter boundary line: the regex `^-{3,}\s*$`. -/
def isBoundaryLine (l : Str) : Bool :=
  let t := dropTrailWS l
  3 ≤ t.length && t.all (fun c => c = '-')

/-- Split the lines following an opening boundary into the metadata lines
and the body lines at the first closing boundary, if any. -/
def takeUntilBoundary : List Str → Option (List Str × List Str)
  | [] => none
  | l :: rest =>
    if isBoundaryLine l then some ([], rest)
    else
      match takeUntilBoundary rest with
      | some (m, r) => some (l :: m, r)
      | none => none

/-- Parse one `key: value` metadata line; lines with no colon are skipped. -/
def parseMetaLine (l : Str) : Option (Str × Str) :=
  if l.any (fun c => c = ':') then
    some (stripL (l.takeWhile (fun c => ¬ c = ':')),
          stripL ((l.dropWhile (fun c => ¬ c = ':')).drop 1))
  else none

/-- Front-matter split: metadata key/value pairs and the body. -/
def parseFM (text : Str) : List (Str × Str) × Str :=
  let t := stripL text
  match splitlinesL t with
  | [] => ([], t)
  | first :: rest =>
    if isBoundaryLine first then
      match takeUntilBoundary rest with
      | some (metaLines, bodyLines) =>
          (metaLines.filterMap parseMetaLine, stripL (joinNL bodyLines))
      | none => ([], t)
    else ([], t)

/-- First binding of a metadata key, as `post.get(key)`. -/
def lookupMeta (meta : List (Str × Str)) (k : Str) : Option Str :=
  (meta.find? (fun pr => decide (pr.1 = k))).map (fun pr => pr.2)

/-!  ## Note model (`models/note.py`)

The `created_at` / `updated_at` fields of the Python model default to the
real ingestion time (`datetime.utcnow`); real time is outside the shallow
embedding, and no claim mentions the timestamps, so the embedded `Note`
carries the four time-independent fields. -/

structure Note where
  title : Str
  content : Str
  file_path : Str
  tags : List Str
deriving DecidableEq, Repr

/-- The content computation of `Note.from_markdown`: split the
post-front-matter body into lines, drop the lines matching the `Tags:`
regex, rejoin and strip. -/
def noteContent (text : Str) : Str :=
  stripL (joinNL ((splitlinesL (parseFM text).2).filter (fun l => ¬ tagsLineMatch l)))

/-- `Note.from_markdown(markdown_content, file_path)`:
front-matter split, removal of body lines matching the `Tags:` regex,
then the title fallback chain (truthy metadata title, else the H1-regex
capture stripped, else the file stem). -/
def fromMarkdown (text path : Str) : Note :=
  let fm := parseFM text
  let content := noteContent text
  let metaTitle := lookupMeta fm.1 ("title".data)
  let fallback : Str :=
    match findH1 content with
    | some h => stripL h
    | none => pathStem path
  let title :=
    match metaTitle with
    | some t => if t = [] then fallback else t
    | none => fallback
  let tags :=
    match lookupMeta fm.1 ("tags".data) with
    | some v => [v]
    | none => []
  { title := title, content := content, file_path := path, tags := tags }

/-!  ## Deterministic note ids (`uuid.uuid5`)

`vector_store.py` derives the point id of a note as
`str(uuid.uuid5(NAMESPACE_NOTE_IDS, note.file_path))` and
`note_indexer.py` recomputes the same id on deletion.  RFC 4122 version-5
UUIDs are implemented here in full: SHA-1 over the namespace bytes
followed by the UTF-8 encoding of the name, truncated to 16 bytes with the
version and variant bits set, printed in the canonical lowercase
hex-and-dash form.  Machine words are `Nat` reduced modulo `2 ^ 32`. -/

/-- UTF-8 encoding of one character, as a list of byte values. -/
def utf8Char (c : Char) : List Nat :=
  let n := c.toNat
  if n < 128 then [n]
  else if n < 2048 then [192 + n / 64, 128 + n % 64]
  else if n < 65536 then [224 + n / 4096, 128 + n / 64 % 64, 128 + n % 64]
  else [240 + n / 262144, 128 + n / 4096 % 64, 128 + n / 64 % 64, 128 + n % 64]

/-- UTF-8 encoding of a string. -/
def utf8Bytes (s : Str) : List Nat := s.flatMap utf8Char

/-- 32-bit left rotation on `Nat` values below `2 ^ 32`. -/
def rotl32 (x k : Nat) : Nat :=
  ((x <<< k) ||| (x >>> (32 - k))) % 4294967296

/-- Big-endian byte rendering of `n` on `k` bytes. -/
def natToBytesBE (n k : Nat) : List Nat :=
  (List.range k).map (fun i => n / 256 ^ (k - 1 - i) % 256)

/-- SHA-1 message padding: `0x80`, zeros, and the 64-bit big-endian bit
length, to a multiple of 64 bytes. -/
def sha1Pad (msg : List Nat) : List Nat :=
  let len := msg.length
  let zeros := (56 + 64 - (len + 1) % 64) % 64
  msg ++ 128 :: List.replicate zeros 0 ++ natToBytesBE (len * 8) 8

/-- The sixteen 32-bit big-endian words of one 64-byte block. -/
def blockWords (blk : List Nat) : List Nat :=
  (List.range 16).map (fun i =>
    (blk.getD (4 * i) 0) * 16777216 + (blk.getD (4 * i + 1) 0) * 65536 +
    (blk.getD (4 * i + 2) 0) * 256 + blk.getD (4 * i + 3) 0)

/-- Extend the 16 block words by `count` further schedule words. -/
def sha1Extend (ws : List Nat) (count : Nat) : List Nat :=
  match count with
  | 0 => ws
  | c + 1 =>
    let n := ws.length
    let w := rotl32 (((ws.getD (n - 3) 0) ^^^ (ws.getD (n - 8) 0)) ^^^
                     (((ws.getD (n - 14) 0) ^^^ (ws.getD (n - 16) 0)))) 1
    sha1Extend (ws ++ [w]) c

/-- The SHA-1 round function and constant for round `i`. -/
def sha1FK (i b c d : Nat) : Nat × Nat :=
  if i < 20 then ((b &&& c) ||| ((b ^^^ 4294967295) &&& d), 1518500249)
  else if i < 40 then ((b ^^^ c) ^^^ d, 1859775393)
  else if i < 60 then ((b &&& c) ||| (b &&& d) ||| (c &&& d), 2400959708)
  else ((b ^^^ c) ^^^ d, 3395469782)

/-- The 80 SHA-1 rounds over one schedule. -/
def sha1Rounds : List Nat → Nat → Nat × Nat × Nat × Nat × Nat → Nat × Nat × Nat × Nat × Nat
  | [], _, st => st
  | w :: rest, i, (a, b, c, d, e) =>
    let fk := sha1FK i b c d
    let temp := (rotl32 a 5 + fk.1 + e + fk.2 + w) % 4294967296
    sha1Rounds rest (i + 1) (temp, a, rotl32 b 30, c, d)

/-- Process one 64-byte block into the running hash state. -/
def sha1Block (h : Nat × Nat × Nat × Nat × Nat) (blk : List Nat) :
    Nat × Nat × Nat × Nat × Nat :=
  let ws := sha1Extend (blockWords blk) 64
  let st := sha1Rounds ws 0 h
  ((h.1 + st.1) % 4294967296,
   (h.2.1 + st.2.1) % 4294967296,
   (h.2.2.1 + st.2.2.1) % 4294967296,
   (h.2.2.2.1 + st.2.2.2.1) % 4294967296,
   (h.2.2.2.2 + st.2.2.2.2) % 4294967296)

/-- Split a padded message into its 64-byte blocks; `fuel` counts blocks. -/
def sha1Blocks (fuel : Nat) (l : List Nat) : List (List Nat) :=
  match fuel with
  | 0 => []
  | f + 1 => l.take 64 :: sha1Blocks f (l.drop 64)

/-- SHA-1 digest (20 bytes) of a byte list. -/
def sha1 (msg : List Nat) : List Nat :=
  let padded := sha1Pad msg
  let st := (sha1Blocks (padded.length / 64) padded).foldl sha1Block
    (1732584193, 4023233417, 2562383102, 271733878, 3285377520)
  natToBytesBE st.1 4 ++ natToBytesBE st.2.1 4 ++ natToBytesBE st.2.2.1 4 ++
    natToBytesBE st.2.2.2.1 4 ++ natToBytesBE st.2.2.2.2 4

/-- The 16 bytes of a version-5 UUID: truncated SHA-1 with the version
nibble forced to 5 and the variant bits forced to binary 10. -/
def uuid5Bytes (ns : List Nat) (name : Str) : List Nat :=
  let d := (sha1 (ns ++ utf8Bytes name)).take 16
  d.mapIdx (fun i b =>
    if i = 6 then b % 16 + 80
    else if i = 8 then b % 64 + 128
    else b)

/-- Lowercase hex digit. -/
def hexDigit (n : Nat) : Char :=
  if n < 10 then Char.ofNat (48 + n) else Char.ofNat (87 + n)

/-- Two lowercase hex digits of one byte. -/
def byteHex (b : Nat) : Str := [hexDigit (b / 16 % 16), hexDigit (b % 16)]

/-- Canonical 8-4-4-4-12 rendering of 16 UUID bytes. -/
def uuidFormat (bs : List Nat) : Str :=
  let hx := bs.flatMap byteHex
  hx.take 8 ++ '-' :: ((hx.drop 8).take 4) ++ '-' :: ((hx.drop 12).take 4) ++
    '-' :: ((hx.drop 16).take 4) ++ '-' :: (hx.drop 20)

/-- The byte form of `NAMESPACE_NOTE_IDS =
UUID('f83a5e8f-7f6b-4e0c-8c5a-3f5d6a8e9c1b')` from `vector_store.py`. -/
def namespaceNoteIds : List Nat :=
  [248, 58, 94, 143, 127, 107, 78, 12, 140, 90, 63, 93, 106, 142, 156, 27]

/-- `str(uuid.uuid5(NAMESPACE_NOTE_IDS, p))`: the deterministic note id
computed from the file path alone, shared by `VectorStore.add_note` and
`NoteIndexer.remove_file`. -/
def noteId (p : Str) : Str := uuidFormat (uuid5Bytes namespaceNoteIds p)

/-!  ## Vector store (`database/vector_store.py`)

The Qdrant collection is an association list from point id to stored
record; `client.upsert` overwrites the record bearing the same id and
appends otherwise.  Embedding vectors are opaque numeric lists (`List
Int`); similarity scores are an arbitrary type parameter, since no claim
computes with them. -/

structure StoredPayload where
  title : Str
  content : Str
  tags : List Str
  file_path : Str
deriving DecidableEq, Repr

structure StoredRec where
  vector : List Int
  payload : StoredPayload
deriving DecidableEq, Repr

abbrev Store := List (Str × StoredRec)

/-- The payload dictionary written by `VectorStore.add_note`. -/
def payloadOf (n : Note) : StoredPayload :=
  { title := n.title, content := n.content, tags := n.tags,
    file_path := n.file_path }

/-- `client.upsert` on one point: overwrite the record with the same id,
or append a new point. -/
def upsertPoint (store : Store) (pid : Str) (r : StoredRec) : Store :=
  if store.any (fun pr => decide (pr.1 = pid)) then
    store.map (fun pr => if pr.1 = pid then (pid, r) else pr)
  else store ++ [(pid, r)]

/-- `VectorStore.add_note(note, embedding)`: upsert under the
deterministic id derived from the file path. -/
def addNote (store : Store) (n : Note) (embedding : List Int) : Store :=
  upsertPoint store (noteId n.file_path) { vector := embedding, payload := payloadOf n }

/-- `client.delete` on one point id (absence is not an error). -/
def deletePoint (store : Store) (pid : Str) : Store :=
  store.filter (fun pr => decide (¬ pr.1 = pid))

/-- A raw nearest-neighbor hit as returned by `client.search`: the payload
fields are read with `dict.get` and may be absent. -/
structure RawHit (σ : Type) where
  title : Option Str
  content : Option Str
  file_path : Option Str
  score : σ
deriving DecidableEq, Repr

/-- A search hit assembled by `VectorStore.search`. -/
structure SearchHit (σ : Type) where
  title : Option Str
  content : Option Str
  file_path : Str
  score : σ
deriving DecidableEq, Repr

/-- The dedup loop of `VectorStore.search`: keep a hit when its
`file_path` is present, truthy (nonempty) and not seen yet. -/
def searchGo {σ : Type} : List (RawHit σ) → List Str → List (SearchHit σ)
  | [], _ => []
  | h :: rest, seen =>
    match h.file_path with
    | some fp =>
      if ¬ fp = [] ∧ ¬ fp ∈ seen then
        { title := h.title, content := h.content, file_path := fp,
          score := h.score } :: searchGo rest (fp :: seen)
      else searchGo rest seen
    | none => searchGo rest seen

/-- `VectorStore.search` applied to the raw hit list produced by the
Qdrant client (which honors the `limit` bound externally). -/
def search {σ : Type} (hits : List (RawHit σ)) : List (SearchHit σ) :=
  searchGo hits []

/-- One entry of the `list_all_notes` result. -/
structure ListEntry where
  title : Str
  preview : Str
deriving DecidableEq, Repr

/-- Model of `re.sub(r'^\s*#+\s*', '', s)`: when at least one `#` follows
the leading whitespace, remove the whitespace, the hashes and the
whitespace after them; otherwise leave the string unchanged. -/
def hashStripStart (s : Str) : Str :=
  let a := s.dropWhile isWS
  if a.head? = some '#' then (a.dropWhile (fun c => c = '#')).dropWhile isWS
  else s

/-- The per-point preview computation of `VectorStore.list_all_notes`.
The `strip_markdown` regex chain is an abstract text transform `stripMd`
(its internals are irrelevant to every claim). -/
def previewOf (stripMd : Str → Str) (payload : StoredPayload) (previewChars : Nat) :
    ListEntry :=
  let content := payload.content
  let title := payload.title
  let filteredLines := (splitlinesL content).filter (fun l => ¬ tagsLineMatch l)
  let cleaned := stripL (joinNL filteredLines)
  let previewText := stripMd cleaned
  let previewText :=
    if (toLowerL title).isPrefixOf (toLowerL previewText) then
      stripL (hashStripStart (stripL (previewText.drop title.length)))
    else previewText
  { title := title,
    preview := previewText.take previewChars ++
      (if previewChars < previewText.length then "...".data else []) }

/-- `VectorStore.list_all_notes(preview_chars)`: empty collection gives an
empty list; otherwise one `scroll` call bounded by `limit=1000` feeds the
preview computation. -/
def listAllNotes (stripMd : Str → Str) (store : Store) (previewChars : Nat) :
    List ListEntry :=
  if store.length = 0 then []
  else (store.take 1000).map (fun pr => previewOf stripMd pr.2.payload previewChars)

/-!  ## Indexer (`indexer/note_indexer.py`)

The external collaborators of `index_file` (content extraction, the
embedding call, the store upsert, the store delete) are supplied through
an environment of fallible functions; the `try` blocks of the source
become matches on the `Except` results. -/

def SUPPORTED_EXTENSIONS : List Str :=
  [".md".data, ".txt".data, ".text".data, ".pdf".data, ".csv".data,
   ".doc".data, ".docx".data, ".xlsx".data, ".html".data, ".htm".data,
   ".js".data, ".ts".data, ".kt".data, ".java".data, ".py".data,
   ".json".data, ".xml".data]

def EXCLUDE_DIRS : List Str := [".obsidian".data, "qdrant_data".data]

/-- The excluded-directory test of `index_file`: some excluded name occurs
among the path components. -/
def excludedHit (p : Str) : Bool :=
  EXCLUDE_DIRS.any (fun d => (pathParts p).contains d)

structure IndexEnv where
  extract : Str → Except Str Str
  embed : Str → Except Str (List Int)
  upsertOk : Str → Bool
  deleteOk : Str → Bool

structure IndexerState where
  indexedFiles : List Str
  store : Store
deriving DecidableEq, Repr

/-- `set.add` on the path set. -/
def setInsert (p : Str) (l : List Str) : List Str := if p ∈ l then l else p :: l

/-- Success of the embed → upsert tail of the `index_file` chain, given
the extracted content. -/
def chainOkTail (env : IndexEnv) (p content : Str) : Bool :=
  match env.embed (fromMarkdown content p).content with
  | .error _ => false
  | .ok _ => env.upsertOk p

/-- Whether the extract → parse → embed → upsert chain of `index_file`
completes without an exception for path `p` under environment `env`. -/
def chainOk (env : IndexEnv) (p : Str) : Bool :=
  match env.extract p with
  | .error _ => false
  | .ok content => chainOkTail env p content

/-- The body of the `try` block of `index_file` after extraction
succeeded: parse the note, embed its content, upsert, record the path; a
caught exception leaves the state unchanged. -/
def indexChain (env : IndexEnv) (st : IndexerState) (p content : Str) :
    IndexerState :=
  let note := fromMarkdown content p
  match env.embed note.content with
  | .error _ => st
  | .ok embedding =>
    if env.upsertOk p then
      { indexedFiles := setInsert p st.indexedFiles,
        store := addNote st.store note embedding }
    else st

/-- `NoteIndexer.index_file(file_path)`: skip excluded paths and
unsupported extensions; run the chain with every exception caught (a
failure leaves the state unchanged; in particular the path is not added to
the indexed-file set). -/
def indexFile (env : IndexEnv) (st : IndexerState) (p : Str) : IndexerState :=
  if excludedHit p then st
  else if ¬ suffixLower p ∈ SUPPORTED_EXTENSIONS then st
  else
    match env.extract p with
    | .error _ => st
    | .ok content => indexChain env st p content

/-- `NoteIndexer.remove_file(file_path)`: only paths in the indexed-file
set act; the store delete uses the recomputed deterministic id and its
failure is caught, while the path is removed from the set regardless. -/
def removeFile (env : IndexEnv) (st : IndexerState) (p : Str) : IndexerState :=
  if p ∈ st.indexedFiles then
    let store := if env.deleteOk p then deletePoint st.store (noteId p) else st.store
    { indexedFiles := st.indexedFiles.filter (fun q => decide (¬ q = p)),
      store := store }
  else st

/-!  ## Directory walk

`os.walk(vault, topdown=True)` with the in-place pruning
`dirs[:] = [d for d in dirs if (root / d).name not in EXCLUDE_DIRS]`,
shared verbatim by `full_index` and `incremental_index`.  A directory tree
is a mutually inductive tree/forest; the walk yields the relative
component lists of the visited files, never descending into an excluded
directory. -/

mutual
inductive FSTree where
  | node (subdirs : FSForest) (files : List Str)
inductive FSForest where
  | nil
  | cons (name : Str) (tree : FSTree) (rest : FSForest)
end

mutual
/-- Relative component paths of the files visited by the pruned walk. -/
def walkRel : FSTree → List (List Str)
  | .node ds fs => fs.map (fun f => [f]) ++ walkRelDirs ds

def walkRelDirs : FSForest → List (List Str)
  | .nil => []
  | .cons name t rest =>
    (if name ∈ EXCLUDE_DIRS then []
     else (walkRel t).map (fun comps => name :: comps)) ++ walkRelDirs rest
end

/-- `str(root / file)` for a file at relative components `comps` under the
vault path. -/
def absPath (vault : Str) (comps : List Str) : Str :=
  vault ++ comps.flatMap (fun c => '/' :: c)

/-- The absolute paths of the files visited by the pruned walk. -/
def walkFilesAbs (vault : Str) (t : FSTree) : List Str :=
  (walkRel t).map (absPath vault)

/-- The per-file body of the `full_index` walk: files with a supported
extension are handed to `index_file`. -/
def sweepStep (env : IndexEnv) (s : IndexerState) (p : Str) : IndexerState :=
  if suffixLower p ∈ SUPPORTED_EXTENSIONS then indexFile env s p else s

/-- `NoteIndexer.full_index()`: clear the indexed-file set, then walk with
pruning and index every supported file. -/
def fullIndexSweep (env : IndexEnv) (vault : Str) (t : FSTree) (st : IndexerState) :
    IndexerState :=
  (walkFilesAbs vault t).foldl (sweepStep env) { st with indexedFiles := [] }

/-- The per-file body of the `incremental_index` walk, instrumented with
the list of paths on which `index_file` is actually called. -/
def incStep (env : IndexEnv) (acc : IndexerState × List Str) (p : Str) :
    IndexerState × List Str :=
  if suffixLower p ∈ SUPPORTED_EXTENSIONS then
    if p ∈ acc.1.indexedFiles then acc
    else (indexFile env acc.1 p, acc.2 ++ [p])
  else acc

/-- `NoteIndexer.incremental_index()`: same pruned walk, calling
`index_file` only on supported paths not in the indexed-file set.  The
second component records the paths on which `index_file` was called. -/
def incrementalSweep (env : IndexEnv) (vault : Str) (t : FSTree) (st : IndexerState) :
    IndexerState × List Str :=
  (walkFilesAbs vault t).foldl (incStep env) (st, [])

/-!  ## Query path (`app.py`)

For every chat query the source first generates the query embedding and
calls `vector_store.search`, stores the results, and only then tests
`"list notes" in query.lower()` to decide whether to additionally answer
with the full listing.  The observable external calls are recorded as an
event list in source order. -/

inductive AppEvent where
  | embedCall (q : Str)
  | searchCall
  | listAllCall
deriving DecidableEq, Repr

structure AppEnv (σ : Type) where
  embed : Str → List Int
  rawSearch : List Int → List (RawHit σ)

structure QueryOutcome (σ : Type) where
  events : List AppEvent
  results : List (SearchHit σ)
  listing : Option (List ListEntry)
deriving Repr

/-- The query handling of `app.py` (`if query:` block): embedding and
similarity search happen unconditionally; the listing branch fires iff the
lowercased query contains `"list notes"`, answering from
`list_all_notes` (default `preview_chars = 100`). -/
def handleQuery {σ : Type} (env : AppEnv σ) (stripMd : Str → Str) (store : Store)
    (q : Str) : QueryOutcome σ :=
  let embedding := env.embed q
  let raw := env.rawSearch embedding
  let results := search raw
  let isListing := hasSubL "list notes".data (toLowerL q)
  { events := [.embedCall q, .searchCall] ++ (if isListing then [.listAllCall] else []),
    results := results,
    listing := if isListing then some (listAllNotes stripMd store 100) else none }

/-- Store well-formedness: point ids are pairwise distinct and every
record is keyed by the deterministic id of its payload path.  `addNote`
establishes and preserves this; the empty store satisfies it. -/
def storeWf (store : Store) : Prop :=
  (store.map (fun pr => pr.1)).Nodup ∧
  ∀ pr ∈ store, pr.1 = noteId pr.2.payload.file_path

instance : DecidablePred storeWf := fun store => by
  unfold storeWf; infer_instance

/-- The conditions under which `index_file` actually indexes a path:
not under an excluded directory, supported extension, and a fully
successful extract → parse → embed → upsert chain. -/
def goodIdx (env : IndexEnv) (p : Str) : Prop :=
  excludedHit p = false ∧ suffixLower p ∈ SUPPORTED_EXTENSIONS ∧ chainOk env p = true

instance (env : IndexEnv) : DecidablePred (goodIdx env) := fun p => by
  unfold goodIdx; infer_instance

/-!  ## Concrete fixtures used by the witness theorems -/

/-- An environment whose external calls all succeed. -/
def wEnv : IndexEnv :=
  { extract := fun _ => .ok "# Alpha\ncontent A".data,
    embed := fun _ => .ok [1],
    upsertOk := fun _ => true,
    deleteOk := fun _ => true }

/-- An environment whose extractor fails on one specific path. -/
def wEnvFail : IndexEnv :=
  { extract := fun p => if p = "/v/bad.md".data then .error "boom".data
                        else .ok "hello".data,
    embed := fun _ => .ok [1],
    upsertOk := fun _ => true,
    deleteOk := fun _ => false }

/-- A small vault: two files at the root and one file inside an
excluded `.obsidian` directory. -/
def wTree : FSTree :=
  .node (.cons ".obsidian".data (.node .nil ["config.json".data]) .nil)
        ["a.md".data, "b.txt".data]

/-- The empty indexer state. -/
def wState : IndexerState := { indexedFiles := [], store := [] }

/-- A trivial app environment. -/
def wAppEnv : AppEnv Int := { embed := fun _ => [], rawSearch := fun _ => [] }

/-- Raw search hits with a duplicated file path. -/
def wHits : List (RawHit Int) :=
  [{ title := some "A".data, content := some "ca".data,
     file_path := some "/v/a.md".data, score := 9 },
   { title := some "A2".data, content := some "c2".data,
     file_path := some "/v/a.md".data, score := 8 },
   { title := some "B".data, content := some "cb".data,
     file_path := some "/v/b.md".data, score := 7 }]

/-!  ## Store lemmas -/

theorem lem_upsert_self (s : Store) (pid : Str) (r : StoredRec) :
    (pid, r) ∈ upsertPoint s pid r := by
  unfold upsertPoint
  by_cases h : s.any (fun pr => decide (pr.1 = pid)) = true
  · rw [if_pos h]
    obtain ⟨pr, hmem, hp⟩ := List.any_eq_true.mp h
    rw [decide_eq_true_eq] at hp
    exact List.mem_map.mpr ⟨pr, hmem, by simp [hp]⟩
  · rw [if_neg h]
    exact List.mem_append_right _ (List.mem_singleton_self _)

theorem lem_upsert_elim (s : Store) (pid : Str) (r : StoredRec) (pr : Str × StoredRec)
    (h : pr ∈ upsertPoint s pid r) : pr = (pid, r) ∨ (pr ∈ s ∧ ¬ pr.1 = pid) := by
  unfold upsertPoint at h
  by_cases hc : s.any (fun q => decide (q.1 = pid)) = true
  · rw [if_pos hc] at h
    obtain ⟨q, hq, hval⟩ := List.mem_map.mp h
    by_cases hqe : q.1 = pid
    · left; rw [if_pos hqe] at hval; exact hval.symm
    · right; rw [if_neg hqe] at hval; exact ⟨hval ▸ hq, hval ▸ hqe⟩
  · rw [if_neg hc] at h
    rcases List.mem_append.mp h with hmem | hnew
    · right
      refine ⟨hmem, ?_⟩
      have := List.any_eq_false.mp (Bool.not_eq_true _ |>.mp hc) pr hmem
      simpa using this
    · left; simpa using hnew

theorem lem_upsert_keys (s : Store) (pid : Str) (r : StoredRec)
    (hnd : (s.map (fun pr => pr.1)).Nodup) :
    ((upsertPoint s pid r).map (fun pr => pr.1)).Nodup := by
  unfold upsertPoint
  by_cases h : s.any (fun pr => decide (pr.1 = pid)) = true
  · rw [if_pos h, List.map_map]
    have : ((fun pr => pr.1) ∘ fun pr : Str × StoredRec =>
        if pr.1 = pid then (pid, r) else pr) = fun pr => pr.1 := by
      funext pr
      by_cases hp : pr.1 = pid <;> simp [hp]
    rw [this]; exact hnd
  · rw [if_neg h, List.map_append]
    have hnot : ∀ pr ∈ s, ¬ pr.1 = pid := by
      intro pr hmem
      have := List.any_eq_false.mp (Bool.not_eq_true _ |>.mp h) pr hmem
      simpa using this
    simp only [List.map_cons, List.map_nil]
    rw [List.nodup_append]
    refine ⟨hnd, List.nodup_singleton _, ?_⟩
    intro a ha hb
    obtain ⟨pr, hpr, hval⟩ := List.mem_map.mp ha
    simp only [List.mem_singleton] at hb
    exact hnot pr hpr (hval.trans hb)

theorem lem_wf_addNote (s : Store) (n : Note) (e : List Int) (hw : storeWf s) :
    storeWf (addNote s n e) := by
  obtain ⟨hnd, hkey⟩ := hw
  refine ⟨lem_upsert_keys s _ _ hnd, ?_⟩
  intro pr hpr
  rcases lem_upsert_elim _ _ _ _ hpr with rfl | ⟨hmem, _⟩
  · rfl
  · exact hkey pr hmem

theorem lem_filter_path_le_one (s : Store) (p : Str) (hw : storeWf s) :
    (s.filter (fun pr => decide (pr.2.payload.file_path = p))).length ≤ 1 := by
  obtain ⟨hnd, hkey⟩ := hw
  induction s with
  | nil => simp
  | cons a rest ih =>
    simp only [List.map_cons, List.nodup_cons] at hnd
    by_cases hp : a.2.payload.file_path = p
    · have hrest : rest.filter (fun pr => decide (pr.2.payload.file_path = p)) = [] := by
        rw [List.filter_eq_nil_iff]
        intro pr hpr
        simp only [decide_eq_true_eq]
        intro hppr
        have h1 : a.1 = noteId p := by
          have := hkey a (List.mem_cons_self a rest); rw [hp] at this; exact this
        have h2 : pr.1 = noteId p := by
          have := hkey pr (List.mem_cons_of_mem a hpr); rw [hppr] at this; exact this
        apply hnd.1
        have : pr.1 ∈ List.map (fun q => q.1) rest :=
          List.mem_map_of_mem (fun q => q.1) hpr
        rw [h2, ← h1] at this
        exact this
      simp [List.filter_cons, hp, hrest]
    · simp only [List.filter_cons, decide_eq_true_eq, hp, if_false]
      exact ih hnd.2 (fun pr hpr => hkey pr (List.mem_cons_of_mem a hpr))

/-- C1: upserting two notes with the same file path `p` leaves exactly one
stored record for `p`, holding the vector and payload of the later call;
its id is the deterministic `uuid5` of `p`; well-formedness (at most one
record per path, ids derived from paths) is preserved. -/
theorem c1_upsert_idempotent (store : Store) (n1 n2 : Note) (e1 e2 : List Int)
    (p : Str) (hw : storeWf store) (_h1 : n1.file_path = p) (h2 : n2.file_path = p) :
    ((noteId p, ({ vector := e2, payload := payloadOf n2 } : StoredRec)) ∈
        addNote (addNote store n1 e1) n2 e2) ∧
    (∀ pr ∈ addNote (addNote store n1 e1) n2 e2, pr.2.payload.file_path = p →
        pr = (noteId p, ({ vector := e2, payload := payloadOf n2 } : StoredRec))) ∧
    ((addNote (addNote store n1 e1) n2 e2).filter
        (fun pr => decide (pr.2.payload.file_path = p))).length = 1 ∧
    storeWf (addNote (addNote store n1 e1) n2 e2) := by
  have hw1 : storeWf (addNote store n1 e1) := lem_wf_addNote store n1 e1 hw
  have hw2 : storeWf (addNote (addNote store n1 e1) n2 e2) :=
    lem_wf_addNote _ n2 e2 hw1
  have hmem : (noteId p, ({ vector := e2, payload := payloadOf n2 } : StoredRec)) ∈
      addNote (addNote store n1 e1) n2 e2 := by
    unfold addNote
    rw [h2]
    exact lem_upsert_self _ _ _
  have huniq : ∀ pr ∈ addNote (addNote store n1 e1) n2 e2,
      pr.2.payload.file_path = p →
      pr = (noteId p, ({ vector := e2, payload := payloadOf n2 } : StoredRec)) := by
    intro pr hpr hppr
    rcases lem_upsert_elim _ _ _ _ hpr with heq | ⟨_, hne⟩
    · rw [heq, h2]
    · exact absurd ((hw2.2 pr hpr).trans (by rw [hppr, ← h2])) hne
  refine ⟨hmem, huniq, ?_, hw2⟩
  have hle := lem_filter_path_le_one _ p hw2
  have hge : 1 ≤ ((addNote (addNote store n1 e1) n2 e2).filter
      (fun pr => decide (pr.2.payload.file_path = p))).length := by
    have : (noteId p, ({ vector := e2, payload := payloadOf n2 } : StoredRec)) ∈
        (addNote (addNote store n1 e1) n2 e2).filter
          (fun pr => decide (pr.2.payload.file_path = p)) := by
      refine List.mem_filter.mpr ⟨hmem, ?_⟩
      simp [payloadOf, h2]
    exact List.length_pos.mpr (List.ne_nil_of_mem this)
  exact Nat.le_antisymm hle hge

/-- Witness for C1 at a concrete store and pair of notes. -/
theorem c1_upsert_idempotent_witness :
    storeWf ([] : Store) ∧
    ((addNote (addNote []
        { title := "A".data, content := "one".data,
          file_path := "/v/a.md".data, tags := [] } [1])
        { title := "A2".data, content := "two".data,
          file_path := "/v/a.md".data, tags := [] } [2]).filter
      (fun pr => decide (pr.2.payload.file_path = "/v/a.md".data))).length = 1 := by
  refine ⟨by decide, ?_⟩
  exact (c1_upsert_idempotent []
    { title := "A".data, content := "one".data,
      file_path := "/v/a.md".data, tags := [] }
    { title := "A2".data, content := "two".data,
      file_path := "/v/a.md".data, tags := [] }
    [1] [2] "/v/a.md".data (by decide) rfl rfl).2.2.1

/-!  ## Claim C9: remove_file -/

/-- C9: `remove_file` on a path not in the indexed-file set is a no-op
(set and store untouched, no exception); on a member path it recomputes
the deterministic id, deletes that point when the store delete succeeds,
leaves the store untouched when the delete raises, and removes the path
from the set in both cases. -/
theorem c9_remove_file (env : IndexEnv) (st : IndexerState) (p : Str) :
    (¬ p ∈ st.indexedFiles → removeFile env st p = st) ∧
    (p ∈ st.indexedFiles →
      (removeFile env st p).indexedFiles =
        st.indexedFiles.filter (fun q => decide (¬ q = p)) ∧
      ¬ p ∈ (removeFile env st p).indexedFiles ∧
      (removeFile env st p).store =
        (if env.deleteOk p then deletePoint st.store (noteId p) else st.store) ∧
      (env.deleteOk p = false → (removeFile env st p).store = st.store)) := by
  constructor
  · intro h
    unfold removeFile
    rw [if_neg h]
  · intro h
    unfold removeFile
    rw [if_pos h]
    refine ⟨rfl, ?_, rfl, ?_⟩
    · intro hmem
      have := (List.mem_filter.mp hmem).2
      simp at this
    · intro hdel
      rw [hdel]
      simp

/-- Witness for C9: a member path with a failing store delete still
leaves the set without the path and the store untouched. -/
theorem c9_remove_file_witness :
    ("/v/a.md".data ∈
      ({ indexedFiles := ["/v/a.md".data], store := [] } : IndexerState).indexedFiles) ∧
    (removeFile wEnvFail { indexedFiles := ["/v/a.md".data], store := [] }
        "/v/a.md".data).indexedFiles =
      (["/v/a.md".data].filter (fun q => decide (¬ q = "/v/a.md".data))) := by
  refine ⟨by decide, ?_⟩
  exact ((c9_remove_file wEnvFail
    { indexedFiles := ["/v/a.md".data], store := [] } "/v/a.md".data).2
    (by decide)).1

/-!  ## Claim C10: list_all_notes -/

theorem lem_previewOf_shape (stripMd : Str → Str) (payload : StoredPayload)
    (pc : Nat) :
    ∃ t : Str, (previewOf stripMd payload pc).preview =
        t.take pc ++ (if pc < t.length then "...".data else []) ∧
      (previewOf stripMd payload pc).preview.length ≤ pc + 3 := by
  unfold previewOf
  refine ⟨_, rfl, ?_⟩
  rw [List.length_append]
  have h1 : ∀ t : Str, (t.take pc).length ≤ pc := by
    intro t; rw [List.length_take]; exact Nat.min_le_left _ _
  have h2 : ∀ c : Prop, [inst : Decidable c] →
      (if c then "...".data else ([] : Str)).length ≤ 3 := by
    intro c inst; by_cases hc : c <;> simp [hc]
  exact Nat.add_le_add (h1 _) (h2 _)

/-- C10: `list_all_notes` returns at most 1000 entries (one scroll call
bounded by `limit=1000`), the empty collection yields the empty list, and
every preview is the processed text truncated to `preview_chars`
characters with `"..."` appended exactly when the processed text is
longer. -/
theorem c10_list_all (stripMd : Str → Str) (store : Store) (pc : Nat) :
    (listAllNotes stripMd store pc).length ≤ 1000 ∧
    (store = [] → listAllNotes stripMd store pc = []) ∧
    (∀ e ∈ listAllNotes stripMd store pc, ∃ t : Str,
       e.preview = t.take pc ++ (if pc < t.length then "...".data else []) ∧
       e.preview.length ≤ pc + 3) := by
  refine ⟨?_, ?_, ?_⟩
  · unfold listAllNotes
    by_cases h : store.length = 0
    · simp [h]
    · rw [if_neg h, List.length_map, List.length_take]
      exact Nat.min_le_left _ _
  · intro h
    subst h
    rfl
  · intro e he
    unfold listAllNotes at he
    by_cases h : store.length = 0
    · rw [if_pos h] at he; exact absurd he (List.not_mem_nil e)
    · rw [if_neg h] at he
      obtain ⟨pr, _, rfl⟩ := List.mem_map.mp he
      exact lem_previewOf_shape stripMd pr.2.payload pc

/-- Witness for C10: the empty store yields the empty listing. -/
theorem c10_list_all_witness :
    listAllNotes (fun s => s) ([] : Store) 100 = [] :=
  (c10_list_all (fun s => s) [] 100).2.1 rfl

/-!  ## Claim C2: search dedup -/

theorem lem_searchGo_none {σ : Type} (h : RawHit σ) (rest : List (RawHit σ))
    (seen : List Str) (hfp : h.file_path = none) :
    searchGo (h :: rest) seen = searchGo rest seen := by
  rw [searchGo.eq_def]; simp only [hfp]

theorem lem_searchGo_keep {σ : Type} (h : RawHit σ) (rest : List (RawHit σ))
    (seen : List Str) (fp : Str) (hfp : h.file_path = some fp)
    (hc : ¬ fp = [] ∧ ¬ fp ∈ seen) :
    searchGo (h :: rest) seen =
      { title := h.title, content := h.content, file_path := fp,
        score := h.score } :: searchGo rest (fp :: seen) := by
  rw [searchGo.eq_def]; simp only [hfp]; rw [if_pos hc]

theorem lem_searchGo_skip {σ : Type} (h : RawHit σ) (rest : List (RawHit σ))
    (seen : List Str) (fp : Str) (hfp : h.file_path = some fp)
    (hc : ¬ (¬ fp = [] ∧ ¬ fp ∈ seen)) :
    searchGo (h :: rest) seen = searchGo rest seen := by
  rw [searchGo.eq_def]; simp only [hfp]; rw [if_neg hc]

theorem lem_searchGo_len {σ : Type} (hits : List (RawHit σ)) :
    ∀ seen, (searchGo hits seen).length ≤ hits.length := by
  induction hits with
  | nil => intro seen; simp [searchGo]
  | cons h rest ih =>
    intro seen
    cases hfp : h.file_path with
    | none =>
      rw [lem_searchGo_none h rest seen hfp]
      exact Nat.le_succ_of_le (ih seen)
    | some fp =>
      by_cases hc : ¬ fp = [] ∧ ¬ fp ∈ seen
      · rw [lem_searchGo_keep h rest seen fp hfp hc]
        simpa using Nat.succ_le_succ (ih (fp :: seen))
      · rw [lem_searchGo_skip h rest seen fp hfp hc]
        exact Nat.le_succ_of_le (ih seen)

theorem lem_searchGo_fresh {σ : Type} (hits : List (RawHit σ)) :
    ∀ seen, ∀ o ∈ searchGo hits seen,
      ¬ o.file_path ∈ seen ∧ ¬ o.file_path = ([] : Str) := by
  induction hits with
  | nil => intro seen o ho; simp [searchGo] at ho
  | cons h rest ih =>
    intro seen o ho
    cases hfp : h.file_path with
    | none =>
      rw [lem_searchGo_none h rest seen hfp] at ho
      exact ih seen o ho
    | some fp =>
      by_cases hc : ¬ fp = [] ∧ ¬ fp ∈ seen
      · rw [lem_searchGo_keep h rest seen fp hfp hc] at ho
        rcases List.mem_cons.mp ho with rfl | hrest
        · exact ⟨hc.2, hc.1⟩
        · have := ih (fp :: seen) o hrest
          exact ⟨fun hmem => this.1 (List.mem_cons_of_mem fp hmem), this.2⟩
      · rw [lem_searchGo_skip h rest seen fp hfp hc] at ho
        exact ih seen o ho

theorem lem_searchGo_nodup {σ : Type} (hits : List (RawHit σ)) :
    ∀ seen, ((searchGo hits seen).map (fun o => o.file_path)).Nodup := by
  induction hits with
  | nil => intro seen; simp [searchGo]
  | cons h rest ih =>
    intro seen
    cases hfp : h.file_path with
    | none =>
      rw [lem_searchGo_none h rest seen hfp]
      exact ih seen
    | some fp =>
      by_cases hc : ¬ fp = [] ∧ ¬ fp ∈ seen
      · rw [lem_searchGo_keep h rest seen fp hfp hc]
        rw [List.map_cons, List.nodup_cons]
        refine ⟨?_, ih (fp :: seen)⟩
        intro hmem
        obtain ⟨o, ho, hofp⟩ := List.mem_map.mp hmem
        have := (lem_searchGo_fresh rest (fp :: seen) o ho).1
        exact this (hofp ▸ List.mem_cons_self fp seen)
      · rw [lem_searchGo_skip h rest seen fp hfp hc]
        exact ih seen

theorem lem_searchGo_provenance {σ : Type} (hits : List (RawHit σ)) :
    ∀ seen, ∀ o ∈ searchGo hits seen,
      ∃ l1 hh l2, hits = l1 ++ hh :: l2 ∧
        hh.file_path = some o.file_path ∧ o.title = hh.title ∧
        o.content = hh.content ∧ o.score = hh.score ∧
        ∀ h3 ∈ l1, ¬ h3.file_path = some o.file_path := by
  induction hits with
  | nil => intro seen o ho; simp [searchGo] at ho
  | cons h rest ih =>
    intro seen o ho
    cases hfp : h.file_path with
    | none =>
      rw [lem_searchGo_none h rest seen hfp] at ho
      obtain ⟨l1, hh, l2, heq, rest9⟩ := ih seen o ho
      refine ⟨h :: l1, hh, l2, by rw [heq]; rfl, rest9.1, rest9.2.1, rest9.2.2.1,
        rest9.2.2.2.1, ?_⟩
      intro h3 h3m
      rcases List.mem_cons.mp h3m with rfl | hmem
      · rw [hfp]; simp
      · exact rest9.2.2.2.2 h3 hmem
    | some fp =>
      by_cases hc : ¬ fp = [] ∧ ¬ fp ∈ seen
      · rw [lem_searchGo_keep h rest seen fp hfp hc] at ho
        rcases List.mem_cons.mp ho with rfl | hrest
        · exact ⟨[], h, rest, rfl, hfp, rfl, rfl, rfl, by intro h3 h3m; simp at h3m⟩
        · obtain ⟨l1, hh, l2, heq, rest9⟩ := ih (fp :: seen) o hrest
          have hofresh := lem_searchGo_fresh rest (fp :: seen) o hrest
          refine ⟨h :: l1, hh, l2, by rw [heq]; rfl, rest9.1, rest9.2.1,
            rest9.2.2.1, rest9.2.2.2.1, ?_⟩
          intro h3 h3m
          rcases List.mem_cons.mp h3m with rfl | hmem
          · rw [hfp]
            intro hcontra
            have : o.file_path = fp := (Option.some.inj hcontra).symm
            exact hofresh.1 (this ▸ List.mem_cons_self fp seen)
          · exact rest9.2.2.2.2 h3 hmem
      · rw [lem_searchGo_skip h rest seen fp hfp hc] at ho
        obtain ⟨l1, hh, l2, heq, rest9⟩ := ih seen o ho
        have hofresh := lem_searchGo_fresh rest seen o ho
        refine ⟨h :: l1, hh, l2, by rw [heq]; rfl, rest9.1, rest9.2.1,
          rest9.2.2.1, rest9.2.2.2.1, ?_⟩
        intro h3 h3m
        rcases List.mem_cons.mp h3m with rfl | hmem
        · rw [hfp]
          intro hcontra
          have hfpo : fp = o.file_path := Option.some.inj hcontra
          rw [Decidable.not_and_iff_or_not] at hc
          rcases hc with hc1 | hc2
          · rw [Decidable.not_not] at hc1
            exact hofresh.2 (hfpo ▸ hc1)
          · rw [Decidable.not_not] at hc2
            exact hofresh.1 (hfpo ▸ hc2)
        · exact rest9.2.2.2.2 h3 hmem

/-- C2: for raw neighbor lists honoring the limit bound, `search` returns
at most `limit` hits, no two returned hits share a `file_path`, and every
returned hit is built from the first raw hit bearing its path, carrying
that hit's payload title, content, file path and score. -/
theorem c2_search_dedup {σ : Type} (hits : List (RawHit σ)) (limit : Nat)
    (hlim : hits.length ≤ limit) :
    (search hits).length ≤ limit ∧
    ((search hits).map (fun o => o.file_path)).Nodup ∧
    (∀ o ∈ search hits, ∃ l1 hh l2, hits = l1 ++ hh :: l2 ∧
      hh.file_path = some o.file_path ∧ o.title = hh.title ∧
      o.content = hh.content ∧ o.score = hh.score ∧
      ∀ h3 ∈ l1, ¬ h3.file_path = some o.file_path) :=
  ⟨Nat.le_trans (lem_searchGo_len hits []) hlim,
   lem_searchGo_nodup hits [],
   lem_searchGo_provenance hits []⟩

/-- Witness for C2 on a concrete hit list with a duplicated path. -/
theorem c2_search_dedup_witness :
    wHits.length ≤ 5 ∧ ((search wHits).map (fun o => o.file_path)).Nodup :=
  ⟨by decide, (c2_search_dedup wHits 5 (by decide)).2.1⟩

/-!  ## Claim C3: the listing intent and the query path -/

/-- C3 counterexample: on the query `"list notes"` the code still calls
the embedding provider and the vector-store similarity search (both events
are emitted, before the listing event), contradicting the claim that a
listing intent bypasses them entirely. -/
theorem c3_counterexample :
    (handleQuery wAppEnv (fun s => s) [] "list notes".data).events =
      [AppEvent.embedCall "list notes".data, AppEvent.searchCall,
       AppEvent.listAllCall] ∧
    AppEvent.embedCall "list notes".data ∈
      (handleQuery wAppEnv (fun s => s) [] "list notes".data).events ∧
    AppEvent.searchCall ∈
      (handleQuery wAppEnv (fun s => s) [] "list notes".data).events := by
  refine ⟨?_, ?_, ?_⟩ <;> decide

/-- C3 amended: the listing answer is produced exactly when the lowercased
query contains `"list notes"`, and it is built from `list_all_notes`; but
the embedding call and the similarity search are performed on every query,
listing queries included. -/
theorem c3_amended_listing {σ : Type} (env : AppEnv σ) (stripMd : Str → Str)
    (store : Store) (q : Str) :
    AppEvent.embedCall q ∈ (handleQuery env stripMd store q).events ∧
    AppEvent.searchCall ∈ (handleQuery env stripMd store q).events ∧
    (handleQuery env stripMd store q).listing =
      (if hasSubL "list notes".data (toLowerL q) = true then
        some (listAllNotes stripMd store 100) else none) ∧
    (handleQuery env stripMd store q).results =
      search (env.rawSearch (env.embed q)) := by
  unfold handleQuery
  refine ⟨by simp, by simp, ?_, rfl⟩
  by_cases h : hasSubL "list notes".data (toLowerL q) = true <;> simp [h]

/-!  ## Indexer lemmas -/

theorem lem_setInsert_mem (p q : Str) (l : List Str) :
    q ∈ setInsert p l ↔ q = p ∨ q ∈ l := by
  unfold setInsert
  by_cases h : p ∈ l
  · rw [if_pos h]
    exact ⟨fun hq => Or.inr hq, fun hq => hq.elim (fun e => e ▸ h) id⟩
  · rw [if_neg h]
    exact List.mem_cons

theorem lem_indexFile_excl (env : IndexEnv) (st : IndexerState) (p : Str)
    (h : excludedHit p = true) : indexFile env st p = st := by
  unfold indexFile; simp [h]

theorem lem_indexFile_unsupported2 (env : IndexEnv) (st : IndexerState) (p : Str)
    (hex : excludedHit p = false) (h : ¬ suffixLower p ∈ SUPPORTED_EXTENSIONS) :
    indexFile env st p = st := by
  unfold indexFile
  rw [if_neg (by simp [hex]), if_pos h]

theorem lem_indexFile_unsupported (env : IndexEnv) (st : IndexerState) (p : Str)
    (h : ¬ suffixLower p ∈ SUPPORTED_EXTENSIONS) : indexFile env st p = st := by
  by_cases hex : excludedHit p
  · exact lem_indexFile_excl env st p hex
  · exact lem_indexFile_unsupported2 env st p (Bool.not_eq_true _ |>.mp hex) h

theorem lem_indexFile_run (env : IndexEnv) (st : IndexerState) (p : Str)
    (hex : excludedHit p = false) (hsupp : suffixLower p ∈ SUPPORTED_EXTENSIONS) :
    indexFile env st p =
      (match env.extract p with
       | .error _ => st
       | .ok content => indexChain env st p content) := by
  unfold indexFile
  rw [if_neg (by simp [hex]), if_neg (by simp [hsupp])]

theorem lem_indexChain_embedErr (env : IndexEnv) (st : IndexerState)
    (p content e : Str)
    (he : env.embed (fromMarkdown content p).content = .error e) :
    indexChain env st p content = st := by
  unfold indexChain
  simp only [he]

theorem lem_indexChain_ok (env : IndexEnv) (st : IndexerState) (p content : Str)
    (emb : List Int)
    (he : env.embed (fromMarkdown content p).content = .ok emb) :
    indexChain env st p content =
      (if env.upsertOk p then
        { indexedFiles := setInsert p st.indexedFiles,
          store := addNote st.store (fromMarkdown content p) emb }
       else st) := by
  unfold indexChain
  simp only [he]

theorem lem_chainOk_extractErr (env : IndexEnv) (p e : Str)
    (hx : env.extract p = .error e) : chainOk env p = false := by
  unfold chainOk; rw [hx]

theorem lem_chainOk_extractOk (env : IndexEnv) (p content : Str)
    (hx : env.extract p = .ok content) :
    chainOk env p = chainOkTail env p content := by
  unfold chainOk; rw [hx]

theorem lem_chainOkTail_embedErr (env : IndexEnv) (p content e : Str)
    (he : env.embed (fromMarkdown content p).content = .error e) :
    chainOkTail env p content = false := by
  unfold chainOkTail; simp only [he]

theorem lem_chainOkTail_embedOk (env : IndexEnv) (p content : Str)
    (emb : List Int)
    (he : env.embed (fromMarkdown content p).content = .ok emb) :
    chainOkTail env p content = env.upsertOk p := by
  unfold chainOkTail; simp only [he]

theorem lem_indexFile_mem (env : IndexEnv) (st : IndexerState) (p q : Str) :
    q ∈ (indexFile env st p).indexedFiles ↔
      q ∈ st.indexedFiles ∨ (q = p ∧ goodIdx env p) := by
  by_cases hex : excludedHit p
  · rw [lem_indexFile_excl env st p hex]
    unfold goodIdx
    simp [hex]
  · have hex2 : excludedHit p = false := Bool.not_eq_true _ |>.mp hex
    by_cases hsupp : suffixLower p ∈ SUPPORTED_EXTENSIONS
    · rw [lem_indexFile_run env st p hex2 hsupp]
      cases hx : env.extract p with
      | error e =>
        unfold goodIdx
        rw [lem_chainOk_extractErr env p e hx]
        simp
      | ok content =>
        show q ∈ (indexChain env st p content).indexedFiles ↔
          q ∈ st.indexedFiles ∨ (q = p ∧ goodIdx env p)
        cases he : env.embed (fromMarkdown content p).content with
        | error e =>
          rw [lem_indexChain_embedErr env st p content e he]
          unfold goodIdx
          rw [lem_chainOk_extractOk env p content hx,
              lem_chainOkTail_embedErr env p content e he]
          simp
        | ok emb =>
          rw [lem_indexChain_ok env st p content emb he]
          unfold goodIdx
          rw [lem_chainOk_extractOk env p content hx,
              lem_chainOkTail_embedOk env p content emb he]
          by_cases hup : env.upsertOk p = true
          · rw [if_pos hup]
            show q ∈ setInsert p st.indexedFiles ↔ _
            rw [lem_setInsert_mem]
            simp [hex2, hsupp, hup]
            tauto
          · rw [if_neg hup]
            simp [hup]
    · rw [lem_indexFile_unsupported env st p hsupp]
      unfold goodIdx
      simp [hsupp]

theorem lem_indexFile_chainFail (env : IndexEnv) (st : IndexerState) (p : Str)
    (h : chainOk env p = false) : indexFile env st p = st := by
  by_cases hex : excludedHit p
  · exact lem_indexFile_excl env st p hex
  · have hex2 : excludedHit p = false := Bool.not_eq_true _ |>.mp hex
    by_cases hsupp : suffixLower p ∈ SUPPORTED_EXTENSIONS
    · rw [lem_indexFile_run env st p hex2 hsupp]
      cases hx : env.extract p with
      | error e => rfl
      | ok content =>
        show indexChain env st p content = st
        cases he : env.embed (fromMarkdown content p).content with
        | error e => exact lem_indexChain_embedErr env st p content e he
        | ok emb =>
          rw [lem_chainOk_extractOk env p content hx,
              lem_chainOkTail_embedOk env p content emb he] at h
          rw [lem_indexChain_ok env st p content emb he, if_neg (by simp [h])]
    · exact lem_indexFile_unsupported env st p hsupp

theorem lem_sweepStep_mem (env : IndexEnv) (s : IndexerState) (p q : Str) :
    q ∈ (sweepStep env s p).indexedFiles ↔
      q ∈ s.indexedFiles ∨ (q = p ∧ goodIdx env p) := by
  unfold sweepStep
  by_cases hs : suffixLower p ∈ SUPPORTED_EXTENSIONS
  · rw [if_pos hs]
    exact lem_indexFile_mem env s p q
  · rw [if_neg hs]
    unfold goodIdx
    tauto

theorem lem_sweepFold_mem (env : IndexEnv) (l : List Str) :
    ∀ (s : IndexerState) (q : Str),
      q ∈ (l.foldl (sweepStep env) s).indexedFiles ↔
        q ∈ s.indexedFiles ∨ (q ∈ l ∧ goodIdx env q) := by
  induction l with
  | nil => intro s q; simp
  | cons p rest ih =>
    intro s q
    rw [List.foldl_cons, ih, lem_sweepStep_mem]
    constructor
    · rintro ((hq | ⟨rfl, hgood⟩) | ⟨hmem, hgood⟩)
      · exact Or.inl hq
      · exact Or.inr ⟨List.mem_cons_self _ _, hgood⟩
      · exact Or.inr ⟨List.mem_cons_of_mem _ hmem, hgood⟩
    · rintro (hq | ⟨hmem, hgood⟩)
      · exact Or.inl (Or.inl hq)
      · rcases List.mem_cons.mp hmem with rfl | hmem2
        · exact Or.inl (Or.inr ⟨rfl, hgood⟩)
        · exact Or.inr ⟨hmem2, hgood⟩

theorem lem_incStep_fst_mem (env : IndexEnv) (acc : IndexerState × List Str)
    (p q : Str) :
    q ∈ ((incStep env acc p).1).indexedFiles ↔
      q ∈ acc.1.indexedFiles ∨ (q = p ∧ goodIdx env p) := by
  unfold incStep
  by_cases hs : suffixLower p ∈ SUPPORTED_EXTENSIONS
  · rw [if_pos hs]
    by_cases hin : p ∈ acc.1.indexedFiles
    · rw [if_pos hin]
      exact ⟨fun hq => Or.inl hq, fun hq => hq.elim id (fun pr => pr.1 ▸ hin)⟩
    · rw [if_neg hin]
      exact lem_indexFile_mem env acc.1 p q
  · rw [if_neg hs]
    unfold goodIdx
    tauto

theorem lem_incFold_fst_mem (env : IndexEnv) (l : List Str) :
    ∀ (acc : IndexerState × List Str) (q : Str),
      q ∈ ((l.foldl (incStep env) acc).1).indexedFiles ↔
        q ∈ acc.1.indexedFiles ∨ (q ∈ l ∧ goodIdx env q) := by
  induction l with
  | nil => intro acc q; simp
  | cons p rest ih =>
    intro acc q
    rw [List.foldl_cons, ih, lem_incStep_fst_mem]
    constructor
    · rintro ((hq | ⟨rfl, hgood⟩) | ⟨hmem, hgood⟩)
      · exact Or.inl hq
      · exact Or.inr ⟨List.mem_cons_self _ _, hgood⟩
      · exact Or.inr ⟨List.mem_cons_of_mem _ hmem, hgood⟩
    · rintro (hq | ⟨hmem, hgood⟩)
      · exact Or.inl (Or.inl hq)
      · rcases List.mem_cons.mp hmem with rfl | hmem2
        · exact Or.inl (Or.inr ⟨rfl, hgood⟩)
        · exact Or.inr ⟨hmem2, hgood⟩

theorem lem_incFold_stable (env : IndexEnv) (l : List Str) :
    ∀ (acc : IndexerState × List Str),
      (∀ p ∈ l, suffixLower p ∈ SUPPORTED_EXTENSIONS → p ∈ acc.1.indexedFiles) →
      l.foldl (incStep env) acc = acc := by
  induction l with
  | nil => intro acc _; rfl
  | cons p rest ih =>
    intro acc H
    have hstep : incStep env acc p = acc := by
      unfold incStep
      by_cases hs : suffixLower p ∈ SUPPORTED_EXTENSIONS
      · rw [if_pos hs, if_pos (H p (List.mem_cons_self _ _) hs)]
      · rw [if_neg hs]
    rw [List.foldl_cons, hstep]
    exact ih acc (fun q hq hsq => H q (List.mem_cons_of_mem p hq) hsq)

/-!  ## Claim C4: per-file failure isolation -/

/-- C4: a failure anywhere in the extract → parse → embed → upsert chain
leaves `index_file` a no-op (state returned unchanged, path not recorded),
and a full sweep indexes exactly the walked supported files whose chain
succeeds — one bad file never aborts or affects the rest of the sweep. -/
theorem c4_index_file_isolated (env : IndexEnv) (vault : Str) (t : FSTree)
    (st : IndexerState) (p : Str) :
    (chainOk env p = false → indexFile env st p = st) ∧
    (∀ q, q ∈ (fullIndexSweep env vault t st).indexedFiles ↔
      (q ∈ walkFilesAbs vault t ∧ goodIdx env q)) := by
  constructor
  · exact lem_indexFile_chainFail env st p
  · intro q
    unfold fullIndexSweep
    rw [lem_sweepFold_mem]
    simp

/-- Witness for C4: the failing extractor path is skipped without effect. -/
theorem c4_index_file_isolated_witness :
    chainOk wEnvFail "/v/bad.md".data = false ∧
    indexFile wEnvFail wState "/v/bad.md".data = wState :=
  ⟨by decide,
   (c4_index_file_isolated wEnvFail "/v".data wTree wState "/v/bad.md".data).1
     (by decide)⟩

/-!  ## Claim C5: pruning of excluded directories -/

mutual
theorem lem_walkRel_sound (t : FSTree) :
    ∀ comps ∈ walkRel t, comps ≠ [] ∧ ∀ d ∈ comps.dropLast, ¬ d ∈ EXCLUDE_DIRS := by
  cases t with
  | node ds fs =>
    intro comps hc
    simp only [walkRel] at hc
    rcases List.mem_append.mp hc with hf | hd
    · obtain ⟨f, _, rfl⟩ := List.mem_map.mp hf
      exact ⟨by simp, by simp⟩
    · exact lem_walkRelDirs_sound ds comps hd

theorem lem_walkRelDirs_sound (fr : FSForest) :
    ∀ comps ∈ walkRelDirs fr, comps ≠ [] ∧ ∀ d ∈ comps.dropLast, ¬ d ∈ EXCLUDE_DIRS := by
  cases fr with
  | nil => intro comps hc; simp [walkRelDirs] at hc
  | cons name t rest =>
    intro comps hc
    simp only [walkRelDirs] at hc
    rcases List.mem_append.mp hc with h1 | h2
    · by_cases hex : name ∈ EXCLUDE_DIRS
      · rw [if_pos hex] at h1; simp at h1
      · rw [if_neg hex] at h1
        obtain ⟨comps0, hc0, rfl⟩ := List.mem_map.mp h1
        obtain ⟨hne, hall⟩ := lem_walkRel_sound t comps0 hc0
        obtain ⟨c, cs, rfl⟩ := List.exists_cons_of_ne_nil hne
        refine ⟨by simp, ?_⟩
        intro d hd
        rw [List.dropLast_cons₂] at hd
        rcases List.mem_cons.mp hd with rfl | hd2
        · exact hex
        · exact hall d hd2
    · exact lem_walkRelDirs_sound rest comps h2
end

/-- C5: the walk shared by `full_index` and `incremental_index` prunes
excluded directories at every depth (no walked file has an excluded name
among its directory components), and `index_file` itself skips excluded
paths — returning the state unchanged and independently of the extraction
environment, i.e. without opening the file — as well as unsupported
extensions. -/
theorem c5_walk_prunes_excluded (t : FSTree) (env env2 : IndexEnv)
    (st : IndexerState) (p : Str) :
    (∀ comps ∈ walkRel t, comps ≠ [] ∧ ∀ d ∈ comps.dropLast, ¬ d ∈ EXCLUDE_DIRS) ∧
    (excludedHit p = true →
      indexFile env st p = st ∧ indexFile env st p = indexFile env2 st p) ∧
    (¬ suffixLower p ∈ SUPPORTED_EXTENSIONS → indexFile env st p = st) := by
  refine ⟨lem_walkRel_sound t, ?_, lem_indexFile_unsupported env st p⟩
  intro h
  constructor
  · unfold indexFile; simp [h]
  · unfold indexFile; simp [h]

/-- Witness for C5: a path under `.obsidian` is skipped unchanged. -/
theorem c5_walk_prunes_excluded_witness :
    excludedHit "/v/.obsidian/n.md".data = true ∧
    indexFile wEnv wState "/v/.obsidian/n.md".data = wState :=
  ⟨by decide,
   ((c5_walk_prunes_excluded wTree wEnv wEnvFail wState
      "/v/.obsidian/n.md".data).2.1 (by decide)).1⟩

/-!  ## Claim C8: incremental indexing reaches a fixpoint -/

/-- C8: when every `index_file` call of a sweep succeeds (walked supported
paths are not excluded and their chain completes), a second
`incremental_index` over the unchanged tree calls `index_file` on zero
files and leaves the state unchanged — both after an `incremental_index`
and after a `full_index`. -/
theorem c8_incremental_fixpoint (env : IndexEnv) (vault : Str) (t : FSTree)
    (st : IndexerState)
    (H : ∀ p ∈ walkFilesAbs vault t, suffixLower p ∈ SUPPORTED_EXTENSIONS →
         excludedHit p = false ∧ chainOk env p = true) :
    incrementalSweep env vault t (incrementalSweep env vault t st).1 =
      ((incrementalSweep env vault t st).1, []) ∧
    incrementalSweep env vault t (fullIndexSweep env vault t st) =
      (fullIndexSweep env vault t st, []) := by
  constructor
  · unfold incrementalSweep
    apply lem_incFold_stable
    intro p hp hs
    rw [lem_incFold_fst_mem]
    exact Or.inr ⟨hp, (H p hp hs).1, hs, (H p hp hs).2⟩
  · unfold incrementalSweep
    apply lem_incFold_stable
    intro p hp hs
    show p ∈ (fullIndexSweep env vault t st).indexedFiles
    unfold fullIndexSweep
    rw [lem_sweepFold_mem]
    exact Or.inr ⟨hp, (H p hp hs).1, hs, (H p hp hs).2⟩

/-- Witness for C8 over the concrete vault and all-succeeding environment. -/
theorem c8_incremental_fixpoint_witness :
    (∀ p ∈ walkFilesAbs "/v".data wTree,
       suffixLower p ∈ SUPPORTED_EXTENSIONS →
       excludedHit p = false ∧ chainOk wEnv p = true) ∧
    incrementalSweep wEnv "/v".data wTree (fullIndexSweep wEnv "/v".data wTree wState) =
      (fullIndexSweep wEnv "/v".data wTree wState, []) :=
  ⟨by decide,
   (c8_incremental_fixpoint wEnv "/v".data wTree wState (by decide)).2⟩

/-!  ## String lemmas for the note-content invariant (C7) -/

theorem lem_split_other (c : Char) (rest : Str) (h1 : ¬ c = '\n') (h2 : ¬ c = '\r') :
    splitlinesL (c :: rest) = consLine c (splitlinesL rest) := by
  rw [splitlinesL.eq_def]
  split
  all_goals simp_all

theorem lem_split_cr (rest : Str) (hg : ∀ rest2, ¬ rest = '\n' :: rest2) :
    splitlinesL ('\r' :: rest) = [] :: splitlinesL rest := by
  rw [splitlinesL.eq_def]
  split
  all_goals simp_all
  rename_i hnn hnr heq
  exact absurd heq.1.symm hnr

theorem lem_splitlines_mem_nlFree (s : Str) :
    ∀ m ∈ splitlinesL s, ¬ '\n' ∈ m ∧ ¬ '\r' ∈ m := by
  induction s using splitlinesL.induct with
  | case1 => intro m hm; simp [splitlinesL] at hm
  | case2 rest ih =>
    intro m hm
    rcases List.mem_cons.mp hm with rfl | h
    · simp
    · exact ih m h
  | case3 rest ih =>
    intro m hm
    rcases List.mem_cons.mp hm with rfl | h
    · simp
    · exact ih m h
  | case4 rest hg ih =>
    intro m hm
    rw [lem_split_cr rest (fun r2 hr2 => hg r2 hr2)] at hm
    rcases List.mem_cons.mp hm with rfl | h
    · simp
    · exact ih m h
  | case5 c rest g2 g3 g4 ih =>
    intro m hm
    rw [lem_split_other c rest (fun h => g3 h) (fun h => g4 h)] at hm
    unfold consLine at hm
    cases hsp : splitlinesL rest with
    | nil =>
      rw [hsp] at hm
      simp only [List.mem_singleton] at hm
      subst hm
      refine ⟨?_, ?_⟩
      · simp only [List.mem_singleton]
        intro hc; exact g3 hc.symm
      · simp only [List.mem_singleton]
        intro hc; exact g4 hc.symm
    | cons l ls =>
      rw [hsp] at hm
      rcases List.mem_cons.mp hm with rfl | h
      · have hl := ih l (hsp ▸ List.mem_cons_self l ls)
        refine ⟨?_, ?_⟩
        · intro hmem
          rcases List.mem_cons.mp hmem with hc | hmem2
          · exact g3 hc.symm
          · exact hl.1 hmem2
        · intro hmem
          rcases List.mem_cons.mp hmem with hc | hmem2
          · exact g4 hc.symm
          · exact hl.2 hmem2
      · exact ih m (hsp ▸ List.mem_cons_of_mem l h)

theorem lem_dropWhile_idem (p : Char → Bool) (l : Str) :
    (l.dropWhile p).dropWhile p = l.dropWhile p := by
  induction l with
  | nil => rfl
  | cons c rest ih =>
    by_cases h : p c
    · rw [List.dropWhile_cons_of_pos h]; exact ih
    · rw [List.dropWhile_cons_of_neg h, List.dropWhile_cons_of_neg h]

theorem lem_dropTrail_idem (l : Str) : dropTrailWS (dropTrailWS l) = dropTrailWS l := by
  unfold dropTrailWS
  rw [List.reverse_reverse, lem_dropWhile_idem]

theorem lem_strip_dropLead (l : Str) : stripL (l.dropWhile isWS) = stripL l := by
  unfold stripL
  rw [lem_dropWhile_idem]

theorem lem_dropTrail_nil_iff (l : Str) :
    dropTrailWS l = [] ↔ ∀ c ∈ l, isWS c := by
  unfold dropTrailWS
  rw [List.reverse_eq_nil_iff, List.dropWhile_eq_nil_iff]
  constructor
  · intro h c hc; exact h c (List.mem_reverse.mpr hc)
  · intro h c hc; exact h c (List.mem_reverse.mp hc)

theorem lem_dropTrail_cons (c : Char) (t : Str) :
    dropTrailWS (c :: t) =
      (if dropTrailWS t = [] then (if isWS c then [] else [c])
       else c :: dropTrailWS t) := by
  unfold dropTrailWS
  rw [List.reverse_cons, List.dropWhile_append]
  by_cases ht : (t.reverse.dropWhile isWS) = []
  · rw [if_pos (by simp [ht]), if_pos (by simp [ht])]
    by_cases hc : isWS c
    · rw [if_pos hc]
      simp [List.dropWhile_cons, hc]
    · rw [if_neg hc]
      simp [List.dropWhile_cons, hc]
  · rw [if_neg (by simp [ht]), if_neg (by simp [ht])]
    rw [List.reverse_append]
    simp

theorem lem_lead_trail_comm (l : Str) :
    (dropTrailWS l).dropWhile isWS = dropTrailWS (l.dropWhile isWS) := by
  induction l with
  | nil => rfl
  | cons c t ih =>
    rw [lem_dropTrail_cons]
    by_cases hnil : dropTrailWS t = []
    · rw [if_pos hnil]
      have htall : ∀ d ∈ t, isWS d := (lem_dropTrail_nil_iff t).mp hnil
      by_cases hc : isWS c
      · rw [if_pos hc]
        rw [List.dropWhile_cons_of_pos hc]
        have : t.dropWhile isWS = [] := List.dropWhile_eq_nil_iff.mpr htall
        rw [this] at ih ⊢
        rw [← ih, hnil]
      · rw [if_neg hc]
        rw [List.dropWhile_cons_of_neg hc, List.dropWhile_cons_of_neg hc]
        rw [lem_dropTrail_cons, if_pos hnil, if_neg hc]
    · rw [if_neg hnil]
      by_cases hc : isWS c
      · rw [List.dropWhile_cons_of_pos hc, List.dropWhile_cons_of_pos hc, ih]
      · rw [List.dropWhile_cons_of_neg hc, List.dropWhile_cons_of_neg hc]
        rw [lem_dropTrail_cons, if_neg hnil]

theorem lem_strip_dropTrail (l : Str) : stripL (dropTrailWS l) = stripL l := by
  unfold stripL
  rw [lem_lead_trail_comm, lem_dropTrail_idem]

theorem lem_tags_congr (a b : Str) (h : stripL a = stripL b) :
    tagsLineMatch a = tagsLineMatch b := by
  unfold tagsLineMatch
  rw [h]

theorem lem_tags_dropLead (l : Str) :
    tagsLineMatch (l.dropWhile isWS) = tagsLineMatch l :=
  lem_tags_congr _ _ (lem_strip_dropLead l)

theorem lem_tags_dropTrail (l : Str) :
    tagsLineMatch (dropTrailWS l) = tagsLineMatch l :=
  lem_tags_congr _ _ (lem_strip_dropTrail l)

theorem lem_strip_strip (l : Str) : stripL (stripL l) = stripL l := by
  unfold stripL
  rw [lem_lead_trail_comm, lem_dropTrail_idem, lem_dropWhile_idem]

theorem lem_splitlines_nlFree (l : Str) (h1 : ¬ '\n' ∈ l) (h2 : ¬ '\r' ∈ l) :
    splitlinesL l = if l = [] then [] else [l] := by
  induction l with
  | nil => rfl
  | cons c rest ih =>
    have hc1 : ¬ c = '\n' := fun h => h1 (h ▸ List.mem_cons_self c rest)
    have hc2 : ¬ c = '\r' := fun h => h2 (h ▸ List.mem_cons_self c rest)
    rw [lem_split_other c rest hc1 hc2]
    rw [ih (fun h => h1 (List.mem_cons_of_mem c h))
          (fun h => h2 (List.mem_cons_of_mem c h))]
    by_cases hrest : rest = []
    · subst hrest; rfl
    · rw [if_neg hrest, if_neg (by simp)]
      rfl

theorem lem_splitlines_line_append (l r : Str) (h1 : ¬ '\n' ∈ l) (h2 : ¬ '\r' ∈ l) :
    splitlinesL (l ++ '\n' :: r) = l :: splitlinesL r := by
  induction l with
  | nil => rfl
  | cons c rest ih =>
    have hc1 : ¬ c = '\n' := fun h => h1 (h ▸ List.mem_cons_self c rest)
    have hc2 : ¬ c = '\r' := fun h => h2 (h ▸ List.mem_cons_self c rest)
    rw [List.cons_append, lem_split_other c _ hc1 hc2]
    rw [ih (fun h => h1 (List.mem_cons_of_mem c h))
          (fun h => h2 (List.mem_cons_of_mem c h))]
    rfl

theorem lem_split_join_mem (ls : List Str)
    (h : ∀ l ∈ ls, ¬ '\n' ∈ l ∧ ¬ '\r' ∈ l) :
    ∀ m ∈ splitlinesL (joinNL ls), m ∈ ls := by
  induction ls with
  | nil => intro m hm; simp [joinNL, splitlinesL] at hm
  | cons l rest ih =>
    intro m hm
    cases hrest : rest with
    | nil =>
      subst hrest
      have hl := h l (List.mem_cons_self l [])
      rw [show joinNL [l] = l from rfl] at hm
      rw [lem_splitlines_nlFree l hl.1 hl.2] at hm
      by_cases hln : l = []
      · rw [if_pos hln] at hm; exact absurd hm (List.not_mem_nil m)
      · rw [if_neg hln] at hm
        simp only [List.mem_singleton] at hm
        subst hm; exact List.mem_cons_self m []
    | cons l2 rest2 =>
      subst hrest
      have hl := h l (List.mem_cons_self l _)
      rw [show joinNL (l :: l2 :: rest2) = l ++ '\n' :: joinNL (l2 :: rest2) from rfl] at hm
      rw [lem_splitlines_line_append l _ hl.1 hl.2] at hm
      rcases List.mem_cons.mp hm with rfl | hm2
      · exact List.mem_cons_self m _
      · exact List.mem_cons_of_mem l (ih (fun q hq => h q (List.mem_cons_of_mem l hq)) m hm2)

theorem lem_join_dropLead (ls : List Str) :
    (joinNL ls).dropWhile isWS = joinNL (trimLead ls) := by
  induction ls with
  | nil => rfl
  | cons l rest ih =>
    cases hrest : rest with
    | nil =>
      subst hrest
      show l.dropWhile isWS = joinNL (trimLead [l])
      unfold trimLead
      by_cases hl : l.dropWhile isWS = []
      · rw [if_pos hl, hl]; rfl
      · rw [if_neg hl]; rfl
    | cons l2 rest2 =>
      subst hrest
      show (l ++ '\n' :: joinNL (l2 :: rest2)).dropWhile isWS = joinNL (trimLead (l :: l2 :: rest2))
      rw [List.dropWhile_append]
      unfold trimLead
      by_cases hl : l.dropWhile isWS = []
      · rw [if_pos (by simp [hl]), if_pos hl]
        rw [List.dropWhile_cons_of_pos (by decide)]
        exact ih
      · rw [if_neg (by simp [hl]), if_neg hl]
        rfl

theorem lem_trimLead_mem (ls : List Str) :
    ∀ m ∈ trimLead ls, m ∈ ls ∨ ∃ l ∈ ls, m = l.dropWhile isWS := by
  induction ls with
  | nil => intro m hm; simp [trimLead] at hm
  | cons l rest ih =>
    intro m hm
    unfold trimLead at hm
    by_cases hl : l.dropWhile isWS = []
    · rw [if_pos hl] at hm
      rcases ih m hm with h1 | ⟨l0, hl0, he⟩
      · exact Or.inl (List.mem_cons_of_mem l h1)
      · exact Or.inr ⟨l0, List.mem_cons_of_mem l hl0, he⟩
    · rw [if_neg hl] at hm
      rcases List.mem_cons.mp hm with rfl | h2
      · exact Or.inr ⟨l, List.mem_cons_self l rest, rfl⟩
      · exact Or.inl (List.mem_cons_of_mem l h2)

theorem lem_join_concat (xs : List Str) (y : Str) (h : ¬ xs = []) :
    joinNL (xs ++ [y]) = joinNL xs ++ '\n' :: y := by
  induction xs with
  | nil => exact absurd rfl h
  | cons x rest ih =>
    cases hrest : rest with
    | nil => rfl
    | cons x2 rest2 =>
      subst hrest
      show joinNL (x :: (x2 :: rest2 ++ [y])) = (x ++ '\n' :: joinNL (x2 :: rest2)) ++ '\n' :: y
      rw [show joinNL (x :: (x2 :: rest2 ++ [y])) = x ++ '\n' :: joinNL (x2 :: rest2 ++ [y]) from rfl]
      rw [ih (by simp)]
      simp

theorem lem_join_reverse (ls : List Str) :
    (joinNL ls).reverse = joinNL ((ls.map List.reverse).reverse) := by
  induction ls with
  | nil => rfl
  | cons l rest ih =>
    cases hrest : rest with
    | nil => rfl
    | cons l2 rest2 =>
      subst hrest
      have hX : (List.map List.reverse (l :: l2 :: rest2)).reverse
          = (List.map List.reverse (l2 :: rest2)).reverse ++ [l.reverse] := by
        rw [List.map_cons, List.reverse_cons]
      rw [show joinNL (l :: l2 :: rest2) = l ++ '\n' :: joinNL (l2 :: rest2) from rfl]
      rw [List.reverse_append, List.reverse_cons, ih, hX]
      rw [lem_join_concat _ _ (by simp)]
      simp

theorem lem_join_dropTrail (ls : List Str) :
    dropTrailWS (joinNL ls) = joinNL (trimTrail ls) := by
  unfold dropTrailWS trimTrail
  rw [lem_join_reverse, lem_join_dropLead, lem_join_reverse, List.map_reverse]

theorem lem_trimTrail_mem (ls : List Str) :
    ∀ m ∈ trimTrail ls, m ∈ ls ∨ ∃ l ∈ ls, m = dropTrailWS l := by
  intro m hm
  unfold trimTrail at hm
  rw [List.map_reverse] at hm
  rw [List.mem_reverse, List.mem_map] at hm
  obtain ⟨m0, hm0, hme⟩ := hm
  rcases lem_trimLead_mem _ m0 hm0 with h1 | ⟨l0, hl0, he⟩
  · rw [List.mem_reverse, List.mem_map] at h1
    obtain ⟨l1, hl1, hle⟩ := h1
    left
    rw [← hme, ← hle]
    simpa using hl1
  · rw [List.mem_reverse, List.mem_map] at hl0
    obtain ⟨l1, hl1, hle⟩ := hl0
    right
    refine ⟨l1, hl1, ?_⟩
    rw [← hme, he, ← hle]
    rfl

theorem lem_dropTrail_sublist (l : Str) : (dropTrailWS l).Sublist l := by
  unfold dropTrailWS
  have h : (l.reverse.dropWhile isWS).Sublist l.reverse := List.dropWhile_sublist isWS
  have h2 := h.reverse
  rwa [List.reverse_reverse] at h2

theorem lem_dropLead_sublist (l : Str) : (l.dropWhile isWS).Sublist l :=
  List.dropWhile_sublist isWS

theorem lem_content_lines (body : Str) :
    ∀ m ∈ splitlinesL
        (stripL (joinNL ((splitlinesL body).filter (fun l => ¬ tagsLineMatch l)))),
      tagsLineMatch m = false ∧ ∃ l ∈ splitlinesL body, stripL l = stripL m := by
  intro m hm
  have hnl : ∀ l ∈ (splitlinesL body).filter (fun l => ¬ tagsLineMatch l),
      ¬ '\n' ∈ l ∧ ¬ '\r' ∈ l :=
    fun l hl => lem_splitlines_mem_nlFree body l (List.mem_of_mem_filter hl)
  have hT : ∀ l ∈ (splitlinesL body).filter (fun l => ¬ tagsLineMatch l),
      tagsLineMatch l = false := by
    intro l hl
    have := List.of_mem_filter hl
    simpa using this
  rw [show stripL (joinNL ((splitlinesL body).filter (fun l => ¬ tagsLineMatch l)))
      = joinNL (trimTrail (trimLead
          ((splitlinesL body).filter (fun l => ¬ tagsLineMatch l)))) by
    unfold stripL
    rw [lem_join_dropLead, lem_join_dropTrail]] at hm
  have htrace : ∀ l ∈ trimTrail (trimLead
      ((splitlinesL body).filter (fun l => ¬ tagsLineMatch l))),
      ∃ l0 ∈ (splitlinesL body).filter (fun l => ¬ tagsLineMatch l),
        stripL l0 = stripL l ∧ (¬ '\n' ∈ l ∧ ¬ '\r' ∈ l) := by
    intro l hl
    rcases lem_trimTrail_mem _ l hl with h1 | ⟨l1, hl1, rfl⟩
    · rcases lem_trimLead_mem _ l h1 with h2 | ⟨l2, hl2, rfl⟩
      · exact ⟨l, h2, rfl, hnl l h2⟩
      · refine ⟨l2, hl2, (lem_strip_dropLead l2).symm, ?_⟩
        have hn := hnl l2 hl2
        exact ⟨fun hmem => hn.1 ((lem_dropLead_sublist l2).subset hmem),
               fun hmem => hn.2 ((lem_dropLead_sublist l2).subset hmem)⟩
    · rcases lem_trimLead_mem _ l1 hl1 with h2 | ⟨l2, hl2, rfl⟩
      · refine ⟨l1, h2, (lem_strip_dropTrail l1).symm, ?_⟩
        have hn := hnl l1 h2
        exact ⟨fun hmem => hn.1 ((lem_dropTrail_sublist l1).subset hmem),
               fun hmem => hn.2 ((lem_dropTrail_sublist l1).subset hmem)⟩
      · refine ⟨l2, hl2, ?_, ?_⟩
        · rw [lem_strip_dropTrail, lem_strip_dropLead]
        · have hn := hnl l2 hl2
          exact ⟨fun hmem => hn.1 ((lem_dropLead_sublist l2).subset
                   ((lem_dropTrail_sublist _).subset hmem)),
                 fun hmem => hn.2 ((lem_dropLead_sublist l2).subset
                   ((lem_dropTrail_sublist _).subset hmem))⟩
  have hmem2 : m ∈ trimTrail (trimLead
      ((splitlinesL body).filter (fun l => ¬ tagsLineMatch l))) := by
    refine lem_split_join_mem _ ?_ m hm
    intro l hl
    exact (htrace l hl).choose_spec.2.2
  obtain ⟨l0, hl0, hstrip, _⟩ := htrace m hmem2
  refine ⟨?_, l0, List.mem_of_mem_filter hl0, hstrip⟩
  rw [← lem_tags_congr l0 m hstrip]
  exact hT l0 hl0

/-!  ## Claim C6: the title fallback chain -/

/-- C6 counterexample: on a body whose only heading is the level-2 line
`## Sub` (no metadata title, no level-1 heading), the claim prescribes the
file stem `x` as the title, yet the code produces `# Sub` — the regex
`^#\s*(.*)` matched the level-2 heading and stripped only one hash. -/
theorem c6_counterexample :
    (fromMarkdown "## Sub".data "notes/x.md".data).title = "# Sub".data ∧
    pathStem "notes/x.md".data = "x".data ∧
    ¬ (fromMarkdown "## Sub".data "notes/x.md".data).title = "x".data ∧
    (∀ m ∈ splitlinesL (fromMarkdown "## Sub".data "notes/x.md".data).content,
       ¬ ("# ".data.isPrefixOf m) = true) ∧
    '#' ∈ (fromMarkdown "## Sub".data "notes/x.md".data).title := by
  refine ⟨by decide, by decide, by decide, by decide, by decide⟩

/-- C6 amended: the title is the truthy metadata title when present;
otherwise, when the H1 regex finds no `#`-line in the cleaned content, the
file stem; otherwise the regex capture (the first line starting with `#`,
any heading level, with one leading hash and the following whitespace run
removed) stripped of surrounding whitespace. -/
theorem c6_amended_title_fallback (text path : Str) :
    ((fromMarkdown text path).content = noteContent text) ∧
    (∀ tval, lookupMeta (parseFM text).1 "title".data = some tval →
       ¬ tval = [] → (fromMarkdown text path).title = tval) ∧
    ((lookupMeta (parseFM text).1 "title".data = none ∨
      lookupMeta (parseFM text).1 "title".data = some []) →
      ((findH1 (noteContent text) = none →
         (fromMarkdown text path).title = pathStem path) ∧
       (∀ hcap, findH1 (noteContent text) = some hcap →
         (fromMarkdown text path).title = stripL hcap))) := by
  refine ⟨rfl, ?_, ?_⟩
  · intro tval hm hne
    unfold fromMarkdown
    simp only [hm]
    rw [if_neg hne]
  · intro hcase
    constructor
    · intro hnone
      unfold fromMarkdown
      rcases hcase with hm | hm
      · simp only [hm, hnone]
      · simp only [hm, hnone, if_pos]
    · intro hcap hh
      unfold fromMarkdown
      rcases hcase with hm | hm
      · simp only [hm, hh]
      · simp only [hm, hh, if_pos]

/-- Witness for C6 amended, on a level-1-headed document without front
matter. -/
theorem c6_amended_title_fallback_witness :
    lookupMeta (parseFM "# Alpha\ncontent A".data).1 "title".data = none ∧
    findH1 (noteContent "# Alpha\ncontent A".data) = some "Alpha".data ∧
    (fromMarkdown "# Alpha\ncontent A".data "/v/a.md".data).title =
      stripL "Alpha".data := by
  refine ⟨by decide, by decide, ?_⟩
  exact ((c6_amended_title_fallback "# Alpha\ncontent A".data "/v/a.md".data).2.2
    (Or.inl (by decide))).2 "Alpha".data (by decide)

/-!  ## Claim C7: the content invariant -/

/-- C7 counterexample: the tags-line filter matches only `Tags:` and
`tags:`; the uppercase variant `TAGS: x` survives into `content`, although
it matches a "tags:" declaration case-insensitively — so the claimed
case-insensitive removal fails. -/
theorem c7_counterexample :
    (fromMarkdown "TAGS: x\nbody".data "/v/a.md".data).content =
      "TAGS: x\nbody".data ∧
    (∃ m ∈ splitlinesL (fromMarkdown "TAGS: x\nbody".data "/v/a.md".data).content,
       ("tags:".data.isPrefixOf (toLowerL (stripL m))) = true) := by
  refine ⟨by decide, by decide⟩

/-- C7 amended: no line of the produced `content` matches the code's
tags-line test (stripped line starting with `Tags:` or `tags:` — first
letter case-insensitive only), and every line of `content` is, up to
whitespace stripping, a line of the post-front-matter body (so the
metadata block never leaks into `content`). -/
theorem c7_amended_content_invariant (text path : Str) :
    ∀ m ∈ splitlinesL (fromMarkdown text path).content,
      tagsLineMatch m = false ∧
      ∃ l ∈ splitlinesL (parseFM text).2, stripL l = stripL m := by
  intro m hm
  have hc : (fromMarkdown text path).content = noteContent text := rfl
  rw [hc] at hm
  unfold noteContent at hm
  exact lem_content_lines (parseFM text).2 m hm

/-- Witness for C7 amended: a document whose body carries a `Tags:` line
above the text keeps only the text, whose sole line passes the tags test
and stems from the body. -/
theorem c7_amended_content_invariant_witness :
    ("hello".data ∈ splitlinesL
      (fromMarkdown "---\ntitle: T\n---\nTags: x\nhello".data "/v/a.md".data).content) ∧
    tagsLineMatch "hello".data = false := by
  refine ⟨by decide, ?_⟩
  exact (c7_amended_content_invariant "---\ntitle: T\n---\nTags: x\nhello".data
    "/v/a.md".data "hello".data (by decide)).1

/-- Validation of the uuid5 implementation against the standard RFC 4122
test vector `uuid5(NAMESPACE_DNS, "python.org")`. -/
theorem lem_uuid5_rfc_vector :
    uuidFormat (uuid5Bytes
      [107, 167, 184, 16, 157, 173, 17, 209, 128, 180, 0, 192, 79, 212, 48, 200]
      "python.org".data) = "886313e1-3b8a-5372-9b90-0c9aee199e5d".data := by
  decide

/-- Behavioral checks of the string model on concrete inputs, mirroring
the Python semantics of splitlines, strip, pathlib and the note parser. -/
theorem lem_model_sanity :
    splitlinesL "a\nb".data = ["a".data, "b".data] ∧
    splitlinesL "a\n".data = ["a".data] ∧
    splitlinesL "\r\r\n".data = [[], []] ∧
    stripL "  hi  ".data = "hi".data ∧
    (fromMarkdown "# Alpha\ncontent A".data "/v/a.md".data).title = "Alpha".data ∧
    (fromMarkdown "plain B".data "/v/b.txt".data).title = "b".data ∧
    (fromMarkdown "---\ntitle: T\ntags: a, b\n---\nbody".data "/v/a.md".data).title
      = "T".data ∧
    (fromMarkdown "---\ntitle: T\n---\nTags: x\nbody".data "/v/a.md".data).content
      = "body".data ∧
    suffixLower "/v/A.MD".data = ".md".data ∧
    pathStem "/v/b.txt".data = "b".data ∧
    pathParts "/v/.obsidian/c.json".data
      = ["v".data, ".obsidian".data, "c.json".data] := by
  refine ⟨by decide, by decide, by decide, by decide, by decide, by decide,
    by decide, by decide, by decide, by decide, by decide⟩
